import Mathlib

/-!
Verification of the h3ron acceleration primitives against their specification.

The development shallowly embeds the four components of the repository:
the long-edge compressor (`GraphLE`), the box-clustering and resolution
matching algorithms of the ndarray crate (`NdAlgo`), and the packed
Hilbert R-tree spatial index of the polars crate (`PolarsSI`).
Machine integers (u64 identifiers, usize positions) are modelled as `Nat`;
the geographic float quantities feeding the resolution matcher and the
spatial index are abstracted as `ℚ` parameters, since the algorithms only
compare them.
-/

namespace GraphLE

/-- Error type of the h3ron-graph crate, restricted to the variants reachable
from the long-edge compressor. Endpoint-decoding failures of the supplied
grid library surface as `edgeEndpointInvalid`. -/
inductive GError
  | insufficientNumberOfEdges
  | edgeEndpointInvalid
  deriving DecidableEq, Repr

/-- An `H3DirectedEdge` is an opaque 64-bit identifier; modelled as `Nat`.
Decoding its endpoints is performed by the external grid-system library,
modelled as partial functions `Nat → Option Nat` (`none` = structurally
invalid edge). -/
abbrev EdgeId := Nat

/-- `H3DirectedEdge::origin_cell`, with the library decoder abstracted as
`origin : EdgeId → Option Nat`; a failed decode surfaces the propagated
`edgeEndpointInvalid` error. -/
def origin_cell (origin : EdgeId → Option Nat) (e : EdgeId) : Except GError Nat :=
  match origin e with
  | some c => Except.ok c
  | none => Except.error GError.edgeEndpointInvalid

/-- `H3DirectedEdge::destination_cell`, abstracted like `origin_cell`. -/
def destination_cell (destination : EdgeId → Option Nat) (e : EdgeId) : Except GError Nat :=
  match destination e with
  | some c => Except.ok c
  | none => Except.error GError.edgeEndpointInvalid

/-- The `for h3edge in iter { out_vec.push(h3edge.destination_cell()?) }`
loop of `h3edge_path_to_h3cell_path`: destinations of the remaining edges. -/
def destsOf (destination : EdgeId → Option Nat) : List EdgeId → Except GError (List Nat)
  | [] => Except.ok []
  | e :: rest =>
    match destination_cell destination e with
    | Except.error g => Except.error g
    | Except.ok dc =>
      match destsOf destination rest with
      | Except.error g => Except.error g
      | Except.ok ds => Except.ok (dc :: ds)

/-- `h3edge_path_to_h3cell_path`: origin and destination of the first edge,
then the destination of every following edge. -/
def h3edge_path_to_h3cell_path (origin destination : EdgeId → Option Nat) :
    List EdgeId → Except GError (List Nat)
  | [] => Except.ok []
  | e :: rest =>
    match origin_cell origin e with
    | Except.error g => Except.error g
    | Except.ok oc =>
      match destination_cell destination e with
      | Except.error g => Except.error g
      | Except.ok dc =>
        match destsOf destination rest with
        | Except.error g => Except.error g
        | Except.ok ds => Except.ok (oc :: dc :: ds)

/-- `Vec::dedup`: removes consecutive repeated elements, keeping the first
of each run. -/
def dedupConsec : List EdgeId → List EdgeId
  | [] => []
  | [a] => [a]
  | a :: b :: rest => if a = b then dedupConsec (b :: rest) else a :: dedupConsec (b :: rest)

/-- `LongEdge`. Modelled from the spec: the `IndexBlock<H3DirectedEdge>`
compressed storage (code of this repository outside the sampled sources) is
represented by the ordered sequence of directed edges it encodes, so its
`len()` is the number of contained edges and decompression yields exactly
that sequence. -/
structure LongEdge where
  in_edge : EdgeId
  out_edge : EdgeId
  edge_path : List EdgeId
  cell_lookup : Finset Nat
  deriving DecidableEq

/-- `LongEdge::h3edges_len`: `(self.edge_path.len() as usize).saturating_sub(1)`
(`Nat` subtraction is saturating). -/
def h3edges_len (le : LongEdge) : Nat :=
  le.edge_path.length - 1

/-- `LongEdge::h3edge_path`. Modelled from the spec: the lazy decompression
iterator of the block yields the encoded edge sequence. -/
def h3edge_path (le : LongEdge) : Except GError (List EdgeId) :=
  Except.ok le.edge_path

/-- `LongEdge::is_disjoint`: treemap disjointness, i.e. no common cell. -/
def is_disjoint (le : LongEdge) (celltreemap : Finset Nat) : Bool :=
  decide (le.cell_lookup ∩ celltreemap = ∅)

/-- `TryFrom<Vec<H3DirectedEdge>> for LongEdge`: dedup consecutive repeats,
require at least 2 remaining edges, build the cell lookup from the walked
cell path (propagating endpoint-decoding failures), store first/last edge
and the compressed path. -/
def longedgeTryFrom (origin destination : EdgeId → Option Nat) (h3edges0 : List EdgeId) :
    Except GError LongEdge :=
  let h3edges := dedupConsec h3edges0
  if 2 ≤ h3edges.length then
    match h3edge_path_to_h3cell_path origin destination h3edges with
    | Except.error e => Except.error e
    | Except.ok cells =>
      Except.ok
        { in_edge := h3edges.headD 0
          out_edge := h3edges.getLastD 0
          edge_path := h3edges
          cell_lookup := cells.toFinset }
  else
    Except.error GError.insufficientNumberOfEdges

/-- Number of runs of consecutive occurrences of `e` that start after an
element `prev`: counts positions holding `e` whose predecessor differs. -/
def runCountAfter (e : EdgeId) : EdgeId → List EdgeId → Nat
  | _, [] => 0
  | prev, a :: rest => (if a = e ∧ a ≠ prev then 1 else 0) + runCountAfter e a rest

/-- Number of maximal runs of `e` in a list: positions holding `e` that are
either first or preceded by a different element. -/
def runCount (e : EdgeId) : List EdgeId → Nat
  | [] => 0
  | a :: rest => (if a = e then 1 else 0) + runCountAfter e a rest

/-- A concrete always-succeeding origin decoder used in concrete instances. -/
def oW : EdgeId → Option Nat := fun e => some e

/-- A concrete always-succeeding destination decoder used in concrete
instances. -/
def dW : EdgeId → Option Nat := fun e => some (e + 1)

/-- The long edge built by `longedgeTryFrom oW dW [5, 7, 5]`. -/
def leW : LongEdge :=
  { in_edge := 5, out_edge := 5, edge_path := [5, 7, 5]
    cell_lookup := ([5, 6, 8, 6] : List Nat).toFinset }

/-- The long edge built by `longedgeTryFrom oW dW [5, 7]`. -/
def leW2 : LongEdge :=
  { in_edge := 5, out_edge := 7, edge_path := [5, 7]
    cell_lookup := ([5, 6, 8] : List Nat).toFinset }

end GraphLE

namespace NdAlgo

/-- Error type of the h3-ndarray crate (variants reachable from
`nearest_h3_resolution`). -/
inductive NdError
  | emptyArray
  | transformNotInvertible
  deriving DecidableEq, Repr

/-- `NearestH3ResolutionSearchMode` of `h3-ndarray/src/algo.rs`. -/
inductive NearestH3ResolutionSearchMode
  | smallestAreaDifference
  | indexAreaSmallerThanPixelArea
  deriving DecidableEq, Repr

/-- The absolute area difference as computed by the source:
`if area_h3_index > area_pixel { area_h3_index - area_pixel } else { area_pixel - area_h3_index }`. -/
def diffOf (areas : Nat → ℚ) (areaPixel : ℚ) (r : Nat) : ℚ :=
  if areas r > areaPixel then areas r - areaPixel else areaPixel - areas r

/-- The `for h3_res in 0..=16` loop of `nearest_h3_resolution`, over the
remaining resolutions to visit, carrying the `nearest_h3_res` and
`area_difference` loop state. The geographic area of the center cell at each
resolution (computed by the external geometry library in the source) is
abstracted as `areas`, and the pixel area as `areaPixel`. -/
def nearestAux (areas : Nat → ℚ) (areaPixel : ℚ)
    (mode : NearestH3ResolutionSearchMode) :
    List Nat → Nat → Option ℚ → Nat
  | [], nearest, _ => nearest
  | r :: rest, nearest, areaDifference =>
    match mode with
    | NearestH3ResolutionSearchMode.indexAreaSmallerThanPixelArea =>
      if areas r ≤ areaPixel then r
      else nearestAux areas areaPixel mode rest nearest areaDifference
    | NearestH3ResolutionSearchMode.smallestAreaDifference =>
      let newAreaDifference := diffOf areas areaPixel r
      match areaDifference with
      | some oldAreaDifference =>
        if oldAreaDifference < newAreaDifference then r - 1
        else nearestAux areas areaPixel mode rest nearest (some newAreaDifference)
      | none => nearestAux areas areaPixel mode rest nearest (some newAreaDifference)

/-- `nearest_h3_resolution`: reject a zero-sized shape, then scan resolutions
0..=16 with the selected search mode, starting from `nearest_h3_res = 0` and
no recorded area difference. -/
def nearest_h3_resolution (shape : Nat × Nat) (areas : Nat → ℚ) (areaPixel : ℚ)
    (mode : NearestH3ResolutionSearchMode) : Except NdError Nat :=
  if shape.1 = 0 ∨ shape.2 = 0 then Except.error NdError.emptyArray
  else Except.ok (nearestAux areas areaPixel mode (List.range 17) 0 none)

/-- Center-cell areas that are strictly decreasing in the resolution, for the
concrete instance with pixel area 63 exercising the two search modes. -/
def areasCex (r : Nat) : ℚ :=
  ((2 ^ (16 - r) : Nat) : ℚ)

/-- The stopping condition of the selected search mode never triggers on
resolutions 0..=16: for `IndexAreaSmallerThanPixelArea` no cell area is below
the pixel area; for `SmallestAreaDifference` the recorded absolute difference
(which after visiting resolution `k-1` is `diffOf areas areaPixel (k-1)`)
never increases. -/
def noTrigger (areas : Nat → ℚ) (areaPixel : ℚ) :
    NearestH3ResolutionSearchMode → Prop
  | NearestH3ResolutionSearchMode.indexAreaSmallerThanPixelArea =>
    ∀ k, k ≤ 16 → ¬ areas k ≤ areaPixel
  | NearestH3ResolutionSearchMode.smallestAreaDifference =>
    ∀ k, 1 ≤ k → k ≤ 16 → ¬ diffOf areas areaPixel (k - 1) < diffOf areas areaPixel k

/-- Discrete coordinate in array-index space, as used by the box-clustering
output rectangles (`x` = axis-0 index, `y` = axis-1 index). -/
structure DCoord where
  x : Nat
  y : Nat
  deriving DecidableEq, Repr

/-- Discrete axis-aligned rectangle (`geo_types::Rect<usize>`). -/
structure DRect where
  rmin : DCoord
  rmax : DCoord
  deriving DecidableEq, Repr

/-- `Rect::new` of geo-types: normalizes the two corners into min/max. -/
def DRect.new (c1 c2 : DCoord) : DRect :=
  { rmin := { x := min c1.x c2.x, y := min c1.y c2.y }
    rmax := { x := max c1.x c2.x, y := max c1.y c2.y } }

/-- The chunk-scanning loop of `find_continuous_chunks_along_axis` over the
per-lane "has any non-nodata value" flags, carrying the absolute position and
the `current_chunk_start` state. -/
def chunksAux : List Bool → Nat → Option Nat → List (Nat × Nat)
  | [], _, none => []
  | [], n, some b => [(b, n - 1)]
  | f :: rest, n, none =>
    if f then chunksAux rest (n + 1) (some n) else chunksAux rest (n + 1) none
  | f :: rest, n, some b =>
    if f then chunksAux rest (n + 1) (some b)
    else (b, n - 1) :: chunksAux rest (n + 1) none

variable {α : Type _}

/-- Whether a lane (row view) contains any value different from the nodata
sentinel: `r0.iter().any(|v| v != nodata_value)`. -/
def laneHasData [DecidableEq α] (nodata : α) (lane : List α) : Bool :=
  lane.any (fun v => decide (v ≠ nodata))

/-- Whether column `j` of a 2D view contains any value different from the
nodata sentinel. -/
def colHasData [DecidableEq α] (nodata : α) (grid : List (List α)) (j : Nat) : Bool :=
  grid.any (fun row =>
    match row.get? j with
    | some v => decide (v ≠ nodata)
    | none => false)

/-- Number of columns of a 2D view (`a.shape()[1]`). -/
def gridWidth (grid : List (List α)) : Nat :=
  match grid with
  | [] => 0
  | row :: _ => row.length

/-- `find_continuous_chunks_along_axis(a, 0, nodata)`: maximal runs of rows
that are not entirely nodata, as inclusive `(begin, end)` index pairs. -/
def find_continuous_chunks_axis0 [DecidableEq α] (grid : List (List α)) (nodata : α) :
    List (Nat × Nat) :=
  chunksAux (grid.map (laneHasData nodata)) 0 none

/-- `find_continuous_chunks_along_axis(a, 1, nodata)`: maximal runs of columns
that are not entirely nodata. -/
def find_continuous_chunks_axis1 [DecidableEq α] (grid : List (List α)) (nodata : α) :
    List (Nat × Nat) :=
  chunksAux ((List.range (gridWidth grid)).map (colHasData nodata grid)) 0 none

/-- Inclusive slice `l[b..=e]` of a list of lanes or values. -/
def sliceList (l : List α) (b e : Nat) : List α :=
  (l.drop b).take (e + 1 - b)

/-- `find_boxes_containing_data`: scan axis 0 for row chunks, restrict to each
chunk and scan axis 1 for column chunks, then rescan the sub-block along
axis 0, emitting one rectangle per resulting (row-range, column-range). -/
def find_boxes_containing_data [DecidableEq α] (grid : List (List α)) (nodata : α) :
    List DRect :=
  (find_continuous_chunks_axis0 grid nodata).flatMap (fun chunk0raw =>
    let sv := sliceList grid chunk0raw.1 chunk0raw.2
    (find_continuous_chunks_axis1 sv nodata).flatMap (fun chunks1raw =>
      let sv2 := (sliceList sv 0 (chunk0raw.2 - chunk0raw.1)).map
        (fun row => sliceList row chunks1raw.1 chunks1raw.2)
      (find_continuous_chunks_axis0 sv2 nodata).map (fun chunks0 =>
        DRect.new
          { x := chunks0.1 + chunk0raw.1, y := chunks1raw.1 }
          { x := chunks0.2 + chunk0raw.1, y := chunks1raw.2 })))

end NdAlgo

namespace PolarsSI

/-- Geographic axis-aligned bounding rectangle; the float coordinates are
modelled as `ℚ` since the index only compares them. -/
structure SIRect where
  minx : ℚ
  miny : ℚ
  maxx : ℚ
  maxy : ℚ
  deriving DecidableEq, Repr

/-- Inclusive intersection test of two axis-aligned boxes, the query
predicate of the underlying static AABB index. -/
def rectsIntersect (a b : SIRect) : Bool :=
  decide (a.minx ≤ b.maxx) && decide (b.minx ≤ a.maxx) &&
    decide (a.miny ≤ b.maxy) && decide (b.miny ≤ a.maxy)

/-- One row of the identifier column as seen through
`iter_indexes_validated()`: `none` is a null row, `some (Except.error _)` an
invalid identifier, `some (Except.ok c)` a valid cell identifier. -/
abbrev ColEntry := Option (Except Unit Nat)

/-- One step of the build fold of `packed_hilbert_rtree_index`: when the
entry is a valid identifier with a computable bounding rectangle
(`rectOf c = some (some rect)` models `spatial_index_rect() == Ok(Some(rect))`),
push the position and the rectangle into the two parallel vectors; otherwise
skip the row. -/
def buildStep (rectOf : Nat → Option (Option SIRect))
    (acc : List Nat × List SIRect) (pe : Nat × ColEntry) : List Nat × List SIRect :=
  match pe.2 with
  | some (Except.ok index) =>
    match rectOf index with
    | some (some rect) => (acc.1 ++ [pe.1], acc.2 ++ [rect])
    | _ => acc
  | _ => acc

/-- The build fold of `packed_hilbert_rtree_index`: enumerate the column and
fold `buildStep` over it, starting from two empty vectors. -/
def packedBuild (rectOf : Nat → Option (Option SIRect)) (col : List ColEntry) :
    List Nat × List SIRect :=
  col.enum.foldl (buildStep rectOf) ([], [])

/-- `PackedHilbertRTreeIndex`: the static AABB index is modelled by the list
of inserted rectangles in insertion order (`none` when no valid rectangle
existed and no index was built), plus the original column length and the
position map back into the column. -/
structure PackedHilbertRTreeIndex where
  index : Option (List SIRect)
  columnLen : Nat
  positions_in_chunked_array : List Nat
  deriving DecidableEq

/-- `packed_hilbert_rtree_index()`: run the build fold and construct the
index when at least one valid rectangle was found. The contract of the
external `StaticAABB2DIndexBuilder` is modelled as succeeding on a non-empty
rectangle set. -/
def packed_hilbert_rtree_index (rectOf : Nat → Option (Option SIRect))
    (col : List ColEntry) : PackedHilbertRTreeIndex :=
  let pr := packedBuild rectOf col
  { index := if pr.1 = [] then none else some pr.2
    columnLen := col.length
    positions_in_chunked_array := pr.1 }

/-- Modelled from the library contract of `StaticAABB2DIndex::query`: the
insertion positions of all boxes intersecting the query box. -/
def indexQuery (rects : List SIRect) (q : SIRect) : List Nat :=
  (List.range rects.length).filter
    (fun i => rectsIntersect (rects.getD i (SIRect.mk 0 0 0 0)) q)

/-- `negative_mask`: an all-false mask over the original column length. -/
def negative_mask (n : Nat) : List Bool :=
  List.replicate n false

/-- `envelopes_intersect_impl`: start from the negative mask and set, for
every internal index position returned by the query, the mask bit at the
original column position given by `positions_in_chunked_array`. -/
def envelopes_intersect_impl (idx : PackedHilbertRTreeIndex) (q : SIRect) :
    List Bool :=
  match idx.index with
  | none => negative_mask idx.columnLen
  | some rects =>
    (indexQuery rects q).foldl
      (fun mask ip => mask.set (idx.positions_in_chunked_array.getD ip 0) true)
      (negative_mask idx.columnLen)

/-- Whether a single enumerated row is kept by the build fold, and with
which rectangle. -/
def keptOf (rectOf : Nat → Option (Option SIRect)) (pe : Nat × ColEntry) :
    Option (Nat × SIRect) :=
  match pe.2 with
  | some (Except.ok index) =>
    match rectOf index with
    | some (some rect) => some (pe.1, rect)
    | _ => none
  | _ => none

def keptPairs (rectOf : Nat → Option (Option SIRect)) (col : List ColEntry) :
    List (Nat × SIRect) :=
  col.enum.filterMap (keptOf rectOf)

end PolarsSI

/-! ## Helper lemmas for the long-edge compressor -/

namespace GraphLE

theorem destsOf_error {d : EdgeId → Option Nat} :
    ∀ {l : List EdgeId} {g : GError}, destsOf d l = Except.error g →
      g = GError.edgeEndpointInvalid := by
  intro l
  induction l with
  | nil => intro g h; simp [destsOf] at h
  | cons e rest ih =>
    intro g h
    rw [destsOf] at h
    cases hd : d e with
    | none =>
      rw [destination_cell, hd] at h
      exact (Except.error.inj h).symm
    | some c =>
      rw [destination_cell, hd] at h
      cases hrest : destsOf d rest with
      | error g2 => rw [hrest] at h; exact (Except.error.inj h) ▸ ih hrest
      | ok ds => rw [hrest] at h; exact absurd h (by simp)

theorem cellpath_error {o d : EdgeId → Option Nat} :
    ∀ {l : List EdgeId} {g : GError},
      h3edge_path_to_h3cell_path o d l = Except.error g →
      g = GError.edgeEndpointInvalid := by
  intro l g h
  cases l with
  | nil => simp [h3edge_path_to_h3cell_path] at h
  | cons e rest =>
    rw [h3edge_path_to_h3cell_path] at h
    cases ho : o e with
    | none =>
      rw [origin_cell, ho] at h
      exact (Except.error.inj h).symm
    | some oc =>
      rw [origin_cell, ho] at h
      cases hd : d e with
      | none =>
        rw [destination_cell, hd] at h
        exact (Except.error.inj h).symm
      | some dc =>
        rw [destination_cell, hd] at h
        cases hrest : destsOf d rest with
        | error g2 => rw [hrest] at h; exact (Except.error.inj h) ▸ destsOf_error hrest
        | ok ds => rw [hrest] at h; exact absurd h (by simp)

theorem tryFrom_ok_inv {o d : EdgeId → Option Nat} {es : List EdgeId} {le : LongEdge}
    (h : longedgeTryFrom o d es = Except.ok le) :
    2 ≤ (dedupConsec es).length ∧
      ∃ cells, h3edge_path_to_h3cell_path o d (dedupConsec es) = Except.ok cells ∧
        le = { in_edge := (dedupConsec es).headD 0
               out_edge := (dedupConsec es).getLastD 0
               edge_path := dedupConsec es
               cell_lookup := cells.toFinset } := by
  simp only [longedgeTryFrom] at h
  by_cases hlen : 2 ≤ (dedupConsec es).length
  · rw [if_pos hlen] at h
    cases hcp : h3edge_path_to_h3cell_path o d (dedupConsec es) with
    | error g => rw [hcp] at h; exact absurd h (by simp)
    | ok cells =>
      rw [hcp] at h
      exact ⟨hlen, cells, rfl, (Except.ok.inj h).symm⟩
  · rw [if_neg hlen] at h
    exact absurd h (by simp)

theorem count_dedupConsec_cons (e : EdgeId) :
    ∀ (rest : List EdgeId) (a : EdgeId),
      (dedupConsec (a :: rest)).count e =
        (if a = e then 1 else 0) + runCountAfter e a rest := by
  intro rest
  induction rest with
  | nil =>
    intro a
    by_cases h : a = e
    · simp [dedupConsec, runCountAfter, h, List.count_cons, List.count_nil]
    · simp [dedupConsec, runCountAfter, h, List.count_cons, List.count_nil]
  | cons b rest ih =>
    intro a
    by_cases hab : a = b
    · subst hab
      rw [dedupConsec, if_pos rfl, ih a, runCountAfter]
      have : ¬ (a = e ∧ a ≠ a) := by simp
      rw [if_neg this]
      omega
    · rw [dedupConsec, if_neg hab]
      have hcount : (a :: dedupConsec (b :: rest)).count e =
          (if a = e then 1 else 0) + (dedupConsec (b :: rest)).count e := by
        by_cases hae : a = e
        · simp [List.count_cons, hae]
          omega
        · simp [List.count_cons, hae]
      rw [hcount, ih b, runCountAfter]
      have hba : (b = e ∧ b ≠ a) ↔ b = e := by
        constructor
        · exact fun hh => hh.1
        · exact fun hh => ⟨hh, fun hba => hab hba.symm⟩
      by_cases hbe : b = e
      · rw [if_pos (hba.mpr hbe), if_pos hbe]
      · rw [if_neg (fun hh => hbe (hba.mp hh)), if_neg hbe]

theorem count_dedupConsec (e : EdgeId) (l : List EdgeId) :
    (dedupConsec l).count e = runCount e l := by
  cases l with
  | nil => rfl
  | cons a rest => rw [count_dedupConsec_cons e rest a, runCount]

theorem runCountAfter_pos_of_get {e : EdgeId} :
    ∀ (l : List EdgeId) (prev : EdgeId) (j : Nat), prev ≠ e →
      l.get? j = some e → 1 ≤ runCountAfter e prev l := by
  intro l
  induction l with
  | nil => intro prev j _ hj; simp at hj
  | cons a rest ih =>
    intro prev j hprev hj
    cases j with
    | zero =>
      have ha : a = e := by simpa using hj
      rw [runCountAfter, if_pos ⟨ha, fun h => hprev (h ▸ ha ▸ rfl)⟩]
      omega
    | succ j =>
      by_cases hae : a = e
      · rw [runCountAfter, if_pos ⟨hae, fun h => hprev (h ▸ hae ▸ rfl)⟩]
        omega
      · rw [runCountAfter, if_neg (fun hh => hae hh.1)]
        have := ih a j hae (by simpa using hj)
        omega

theorem runCountAfter_pos_of_sep {e : EdgeId} :
    ∀ (l : List EdgeId) (prev : EdgeId) (k j : Nat), k < j →
      l.get? k ≠ some e → l.get? j = some e → 1 ≤ runCountAfter e prev l := by
  intro l
  induction l with
  | nil => intro prev k j _ _ hj; simp at hj
  | cons a rest ih =>
    intro prev k j hkj hk hj
    cases k with
    | zero =>
      have hae : a ≠ e := by
        intro h; exact hk (by simpa using h)
      obtain ⟨j', rfl⟩ : ∃ j', j = j' + 1 := ⟨j - 1, by omega⟩
      rw [runCountAfter, if_neg (fun hh => hae hh.1)]
      have := runCountAfter_pos_of_get rest a j' hae (by simpa using hj)
      omega
    | succ k' =>
      obtain ⟨j', rfl⟩ : ∃ j', j = j' + 1 := ⟨j - 1, by omega⟩
      rw [runCountAfter]
      have := ih a k' j' (by omega) (by simpa using hk) (by simpa using hj)
      have hge : (if a = e ∧ a ≠ prev then 1 else 0) ≥ 0 := by omega
      omega

theorem runCountAfter_two_of_pattern {e : EdgeId} :
    ∀ (l : List EdgeId) (prev : EdgeId) (i k j : Nat), i < k → k < j → prev ≠ e →
      l.get? i = some e → l.get? k ≠ some e → l.get? j = some e →
      2 ≤ runCountAfter e prev l := by
  intro l
  induction l with
  | nil => intro prev i k j _ _ _ hi _ _; simp at hi
  | cons a rest ih =>
    intro prev i k j hik hkj hprev hi hk hj
    obtain ⟨k', rfl⟩ : ∃ k', k = k' + 1 := ⟨k - 1, by omega⟩
    obtain ⟨j', rfl⟩ : ∃ j', j = j' + 1 := ⟨j - 1, by omega⟩
    cases i with
    | zero =>
      have hae : a = e := by simpa using hi
      rw [runCountAfter, if_pos ⟨hae, fun h => hprev (h ▸ hae ▸ rfl)⟩]
      have := runCountAfter_pos_of_sep rest a k' j' (by omega)
        (by simpa using hk) (by simpa using hj)
      omega
    | succ i' =>
      by_cases hae : a = e
      · rw [runCountAfter, if_pos ⟨hae, fun h => hprev (h ▸ hae ▸ rfl)⟩]
        have := runCountAfter_pos_of_sep rest a k' j' (by omega)
          (by simpa using hk) (by simpa using hj)
        omega
      · rw [runCountAfter, if_neg (fun hh => hae hh.1)]
        have := ih a i' k' j' (by omega) (by omega) hae
          (by simpa using hi) (by simpa using hk) (by simpa using hj)
        omega

theorem runCount_two_of_pattern {e : EdgeId} {l : List EdgeId} {i k j : Nat}
    (hik : i < k) (hkj : k < j) (hi : l.get? i = some e)
    (hk : l.get? k ≠ some e) (hj : l.get? j = some e) :
    2 ≤ runCount e l := by
  cases l with
  | nil => simp at hi
  | cons a rest =>
    obtain ⟨k', rfl⟩ : ∃ k', k = k' + 1 := ⟨k - 1, by omega⟩
    obtain ⟨j', rfl⟩ : ∃ j', j = j' + 1 := ⟨j - 1, by omega⟩
    cases i with
    | zero =>
      have hae : a = e := by simpa using hi
      rw [runCount, if_pos hae]
      have := runCountAfter_pos_of_sep rest a k' j' (by omega)
        (by simpa using hk) (by simpa using hj)
      omega
    | succ i' =>
      by_cases hae : a = e
      · rw [runCount, if_pos hae]
        have := runCountAfter_pos_of_sep rest a k' j' (by omega)
          (by simpa using hk) (by simpa using hj)
        omega
      · rw [runCount, if_neg hae]
        have := runCountAfter_two_of_pattern rest a i' k' j' (by omega) (by omega) hae
          (by simpa using hi) (by simpa using hk) (by simpa using hj)
        omega

theorem cellpath_cons_inv {o d : EdgeId → Option Nat} {e : EdgeId} {rest : List EdgeId}
    {cells : List Nat}
    (h : h3edge_path_to_h3cell_path o d (e :: rest) = Except.ok cells) :
    ∃ oc dds, origin_cell o e = Except.ok oc ∧
      destsOf d (e :: rest) = Except.ok dds ∧ cells = oc :: dds := by
  rw [h3edge_path_to_h3cell_path] at h
  cases ho : origin_cell o e with
  | error g => rw [ho] at h; exact absurd h (by simp)
  | ok oc =>
    rw [ho] at h
    cases hd : destination_cell d e with
    | error g => rw [hd] at h; exact absurd h (by simp)
    | ok dc =>
      rw [hd] at h
      cases hr : destsOf d rest with
      | error g => rw [hr] at h; exact absurd h (by simp)
      | ok ds =>
        rw [hr] at h
        refine ⟨oc, dc :: ds, rfl, ?_, (Except.ok.inj h).symm⟩
        rw [destsOf, hd, hr]

end GraphLE

/-! ## Claims about the long-edge compressor -/

namespace GraphLE

/-- Claim C7: `LongEdge` construction fails with `InsufficientNumberOfEdges`
iff fewer than 2 edges remain after removing consecutive identical edges;
when at least 2 remain and all endpoint decodings succeed, construction
succeeds with `in_edge` the first and `out_edge` the last edge of the
deduplicated sequence. -/
theorem claim_c7_longedge_construction (o d : EdgeId → Option Nat) (es : List EdgeId) :
    (longedgeTryFrom o d es = Except.error GError.insufficientNumberOfEdges ↔
      (dedupConsec es).length < 2) ∧
    (∀ cells, 2 ≤ (dedupConsec es).length →
      h3edge_path_to_h3cell_path o d (dedupConsec es) = Except.ok cells →
      ∃ le, longedgeTryFrom o d es = Except.ok le ∧
        le.in_edge = (dedupConsec es).headD 0 ∧
        le.out_edge = (dedupConsec es).getLastD 0) := by
  constructor
  · constructor
    · intro h
      by_cases hlen : 2 ≤ (dedupConsec es).length
      · exfalso
        simp only [longedgeTryFrom] at h
        rw [if_pos hlen] at h
        cases hcp : h3edge_path_to_h3cell_path o d (dedupConsec es) with
        | error g =>
          rw [hcp] at h
          have hg : g = GError.insufficientNumberOfEdges := Except.error.inj h
          have hg2 : g = GError.edgeEndpointInvalid := cellpath_error hcp
          rw [hg] at hg2
          exact absurd hg2 (by decide)
        | ok cells =>
          rw [hcp] at h
          exact absurd h (by simp)
      · omega
    · intro hlen
      simp only [longedgeTryFrom]
      rw [if_neg (by omega)]
  · intro cells hlen hcp
    refine ⟨{ in_edge := (dedupConsec es).headD 0
              out_edge := (dedupConsec es).getLastD 0
              edge_path := dedupConsec es
              cell_lookup := cells.toFinset }, ?_, rfl, rfl⟩
    simp only [longedgeTryFrom]
    rw [if_pos hlen, hcp]

/-- Witness for claim C7 at a concrete input: `[5, 7]` deduplicates to
itself, decodings succeed, and construction returns a long edge with the
expected first/last edges. -/
theorem claim_c7_witness :
    ∃ le, longedgeTryFrom oW dW [5, 7] = Except.ok le ∧
      le.in_edge = (dedupConsec [5, 7]).headD 0 ∧
      le.out_edge = (dedupConsec [5, 7]).getLastD 0 :=
  (claim_c7_longedge_construction oW dW [5, 7]).2 [5, 6, 8] (by decide) (by rfl)

/-- Claim C5: for every edge sequence from which a `LongEdge` is
successfully constructed, decompressing the stored edge block yields exactly
the input sequence after consecutive-duplicate removal, in order. -/
theorem claim_c5_roundtrip (o d : EdgeId → Option Nat) (es : List EdgeId)
    (le : LongEdge) (h : longedgeTryFrom o d es = Except.ok le) :
    h3edge_path le = Except.ok (dedupConsec es) := by
  obtain ⟨-, cells, -, hle⟩ := tryFrom_ok_inv h
  rw [hle]
  rfl

/-- Witness for claim C5 at the concrete input `[5, 7, 5]`. -/
theorem claim_c5_roundtrip_witness :
    h3edge_path leW = Except.ok (dedupConsec [5, 7, 5]) :=
  claim_c5_roundtrip oW dW [5, 7, 5] leW (by rfl)

/-- Claim C6: for a validly constructed `LongEdge`, `is_disjoint s` is true
iff `s` contains none of the cells visited by the path, and the visited cell
sequence is exactly the origin cell of the first edge followed by the
destination cells of every edge of the deduplicated path. -/
theorem claim_c6_is_disjoint (o d : EdgeId → Option Nat) (es : List EdgeId)
    (le : LongEdge) (cells : List Nat)
    (h : longedgeTryFrom o d es = Except.ok le)
    (hc : h3edge_path_to_h3cell_path o d (dedupConsec es) = Except.ok cells) :
    (∀ s : Finset Nat, is_disjoint le s = true ↔ ∀ c ∈ cells, c ∉ s) ∧
    (∀ e rest, dedupConsec es = e :: rest →
      ∃ oc dds, origin_cell o e = Except.ok oc ∧
        destsOf d (e :: rest) = Except.ok dds ∧ cells = oc :: dds) := by
  obtain ⟨-, cells', hc', hle⟩ := tryFrom_ok_inv h
  rw [hc] at hc'
  have hcc : cells = cells' := Except.ok.inj hc'
  subst hcc
  constructor
  · intro s
    rw [hle]
    simp only [is_disjoint, decide_eq_true_eq]
    rw [Finset.eq_empty_iff_forall_not_mem]
    constructor
    · intro hall c hcin hcs
      exact hall c (Finset.mem_inter.mpr ⟨List.mem_toFinset.mpr hcin, hcs⟩)
    · intro hall c hcmem
      obtain ⟨hc1, hc2⟩ := Finset.mem_inter.mp hcmem
      exact hall c (List.mem_toFinset.mp hc1) hc2
  · intro e rest hrw
    rw [hrw] at hc
    exact cellpath_cons_inv hc

/-- Witness for claim C6 at the concrete input `[5, 7, 5]` and the cell set
`{7}` disjoint from the visited cells `[5, 6, 8, 6]`. -/
theorem claim_c6_witness :
    is_disjoint leW {7} = true ↔ ∀ c ∈ ([5, 6, 8, 6] : List Nat), c ∉ ({7} : Finset Nat) :=
  (claim_c6_is_disjoint oW dW [5, 7, 5] leW [5, 6, 8, 6] (by rfl) (by rfl)).1 {7}

/-- Claim C10: construction deduplicates only consecutive identical edges:
the stored edge path is the consecutive-dedup of the input, every edge
occurs in it once per maximal run of the input (so non-adjacent repeats are
all retained), and in particular an edge occurring at two positions
separated by a different edge is retained at least twice. -/
theorem claim_c10_dedup_adjacent_only (o d : EdgeId → Option Nat) (es : List EdgeId)
    (le : LongEdge) (h : longedgeTryFrom o d es = Except.ok le) :
    le.edge_path = dedupConsec es ∧
    (∀ e, le.edge_path.count e = runCount e es) ∧
    (∀ e i k j, i < k → k < j → es.get? i = some e → es.get? k ≠ some e →
      es.get? j = some e → 2 ≤ le.edge_path.count e) := by
  obtain ⟨-, cells, -, hle⟩ := tryFrom_ok_inv h
  have hpath : le.edge_path = dedupConsec es := by rw [hle]
  refine ⟨hpath, fun e => ?_, fun e i k j hik hkj hi hk hj => ?_⟩
  · rw [hpath, count_dedupConsec]
  · rw [hpath, count_dedupConsec]
    exact runCount_two_of_pattern hik hkj hi hk hj

/-- Witness for claim C10: in `[5, 7, 5]`, edge 5 occurs at positions 0 and 2
separated by edge 7, and the stored edge path of the constructed long edge
retains both occurrences. -/
theorem claim_c10_witness : 2 ≤ leW.edge_path.count 5 :=
  (claim_c10_dedup_adjacent_only oW dW [5, 7, 5] leW (by rfl)).2.2 5 0 1 2
    (by omega) (by omega) (by rfl) (by decide) (by rfl)

/-- Claim C3 (code bug): for the two-edge path `[5, 7]`, construction
succeeds, decompressing `h3edge_path` yields 2 edges, but `h3edges_len`
returns 1, i.e. the number of deduplicated edges minus one rather than the
number of edges, contradicting its own documentation. -/
theorem claim_c3_h3edges_len_off_by_one :
    longedgeTryFrom oW dW [5, 7] = Except.ok leW2 ∧
    h3edge_path leW2 = Except.ok [5, 7] ∧
    ([5, 7] : List EdgeId).length = 2 ∧
    h3edges_len leW2 = 1 :=
  ⟨by rfl, by rfl, by rfl, by rfl⟩

end GraphLE


/-! ## Helper lemmas for the resolution matcher -/

namespace NdAlgo

theorem diffOf_of_le (areas : Nat → ℚ) (p : ℚ) {r : Nat} (h : areas r ≤ p) :
    diffOf areas p r = p - areas r := by
  rw [diffOf, if_neg (not_lt.mpr h)]

theorem diffOf_of_gt (areas : Nat → ℚ) (p : ℚ) {r : Nat} (h : p < areas r) :
    diffOf areas p r = areas r - p := by
  rw [diffOf, if_pos h]

theorem nearestAux_nil (areas : Nat → ℚ) (p : ℚ) (mode : NearestH3ResolutionSearchMode)
    (ne : Nat) (ad : Option ℚ) : nearestAux areas p mode [] ne ad = ne := by
  cases mode
  · rfl
  · rfl

theorem nearestAux_cons_B (areas : Nat → ℚ) (p : ℚ) (r : Nat) (rest : List Nat)
    (ne : Nat) (ad : Option ℚ) :
    nearestAux areas p NearestH3ResolutionSearchMode.indexAreaSmallerThanPixelArea
        (r :: rest) ne ad =
      if areas r ≤ p then r
      else nearestAux areas p NearestH3ResolutionSearchMode.indexAreaSmallerThanPixelArea
        rest ne ad := rfl

theorem nearestAux_cons_A_none (areas : Nat → ℚ) (p : ℚ) (r : Nat) (rest : List Nat)
    (ne : Nat) :
    nearestAux areas p NearestH3ResolutionSearchMode.smallestAreaDifference
        (r :: rest) ne none =
      nearestAux areas p NearestH3ResolutionSearchMode.smallestAreaDifference
        rest ne (some (diffOf areas p r)) := rfl

theorem nearestAux_cons_A_some (areas : Nat → ℚ) (p : ℚ) (r : Nat) (rest : List Nat)
    (ne : Nat) (old : ℚ) :
    nearestAux areas p NearestH3ResolutionSearchMode.smallestAreaDifference
        (r :: rest) ne (some old) =
      if old < diffOf areas p r then r - 1
      else nearestAux areas p NearestH3ResolutionSearchMode.smallestAreaDifference
        rest ne (some (diffOf areas p r)) := rfl

theorem nearestAux_le_16 (areas : Nat → ℚ) (p : ℚ) (mode : NearestH3ResolutionSearchMode) :
    ∀ (l : List Nat) (ne : Nat) (ad : Option ℚ), (∀ x ∈ l, x ≤ 16) → ne ≤ 16 →
      nearestAux areas p mode l ne ad ≤ 16 := by
  intro l
  induction l with
  | nil =>
    intro ne ad _ hne
    rw [nearestAux_nil]
    exact hne
  | cons r rest ih =>
    intro ne ad hl hne
    have hr : r ≤ 16 := hl r (by simp)
    have hrest : ∀ x ∈ rest, x ≤ 16 := fun x hx => hl x (by simp [hx])
    cases mode with
    | indexAreaSmallerThanPixelArea =>
      rw [nearestAux_cons_B]
      by_cases hc : areas r ≤ p
      · rw [if_pos hc]; exact hr
      · rw [if_neg hc]; exact ih ne ad hrest hne
    | smallestAreaDifference =>
      cases ad with
      | none =>
        rw [nearestAux_cons_A_none]
        exact ih ne _ hrest hne
      | some old =>
        rw [nearestAux_cons_A_some]
        by_cases hc : old < diffOf areas p r
        · rw [if_pos hc]; omega
        · rw [if_neg hc]; exact ih ne _ hrest hne

theorem nearestAux_B_skip (areas : Nat → ℚ) (p : ℚ) :
    ∀ (l : List Nat) (ne : Nat) (ad : Option ℚ), (∀ x ∈ l, ¬ areas x ≤ p) →
      nearestAux areas p NearestH3ResolutionSearchMode.indexAreaSmallerThanPixelArea
        l ne ad = ne := by
  intro l
  induction l with
  | nil => intro ne ad _; rw [nearestAux_nil]
  | cons r rest ih =>
    intro ne ad hl
    rw [nearestAux_cons_B, if_neg (hl r (by simp))]
    exact ih ne ad (fun x hx => hl x (by simp [hx]))

theorem nearestAux_B_first (areas : Nat → ℚ) (p : ℚ) (a : Nat)
    (hmin : ∀ r, r < a → ¬ areas r ≤ p) (ha : areas a ≤ p) :
    ∀ (n k : Nat) (ne : Nat) (ad : Option ℚ), k ≤ a → a < k + n →
      nearestAux areas p NearestH3ResolutionSearchMode.indexAreaSmallerThanPixelArea
        (List.range' k n) ne ad = a := by
  intro n
  induction n with
  | zero => intro k ne ad hka hak; omega
  | succ n ih =>
    intro k ne ad hka hak
    rw [List.range'_succ, nearestAux_cons_B]
    by_cases hk : k = a
    · subst hk; rw [if_pos ha]
    · rw [if_neg (hmin k (by omega))]
      exact ih (k + 1) ne ad (by omega) (by omega)

theorem nearestAux_A_pass (areas : Nat → ℚ) (p : ℚ) :
    ∀ (n k : Nat) (ne : Nat) (tail : List Nat), 1 ≤ k →
      (∀ r, k ≤ r → r < k + n → ¬ diffOf areas p (r - 1) < diffOf areas p r) →
      nearestAux areas p NearestH3ResolutionSearchMode.smallestAreaDifference
        (List.range' k n ++ tail) ne (some (diffOf areas p (k - 1))) =
      nearestAux areas p NearestH3ResolutionSearchMode.smallestAreaDifference
        tail ne (some (diffOf areas p (k + n - 1))) := by
  intro n
  induction n with
  | zero =>
    intro k ne tail hk _
    rw [List.range'_zero, List.nil_append]
    have harg : k - 1 = k + 0 - 1 := by omega
    rw [harg]
  | succ n ih =>
    intro k ne tail hk hno
    rw [List.range'_succ, List.cons_append, nearestAux_cons_A_some]
    rw [if_neg (hno k (le_refl k) (by omega))]
    have h1 : diffOf areas p k = diffOf areas p ((k + 1) - 1) := by norm_num
    rw [h1, ih (k + 1) ne tail (by omega) (fun r hr1 hr2 => hno r (by omega) (by omega))]
    have harg : (k + 1) + n - 1 = k + (n + 1) - 1 := by omega
    rw [harg]

theorem nearestAux_A_noTrigger (areas : Nat → ℚ) (p : ℚ)
    (hno : ∀ r, 1 ≤ r → r ≤ 16 → ¬ diffOf areas p (r - 1) < diffOf areas p r) :
    nearestAux areas p NearestH3ResolutionSearchMode.smallestAreaDifference
      (List.range 17) 0 none = 0 := by
  have h0 : List.range 17 = (0 : Nat) :: List.range' 1 16 := by
    rw [List.range_eq_range']
    rfl
  rw [h0, nearestAux_cons_A_none]
  have h1 : diffOf areas p 0 = diffOf areas p (1 - 1) := by norm_num
  rw [h1]
  have hpass := nearestAux_A_pass areas p 16 1 0 []
    (le_refl 1) (fun r hr1 hr2 => hno r hr1 (by omega))
  rw [List.append_nil] at hpass
  rw [hpass, nearestAux_nil]

end NdAlgo

/-! ## Claims about the resolution matcher -/

namespace NdAlgo

/-- Claim C8: `nearest_h3_resolution` returns the `EmptyArray` error iff at
least one of the two shape dimensions is 0, and does not return it when both
dimensions are non-zero. -/
theorem claim_c8_empty_array (shape : Nat × Nat) (areas : Nat → ℚ) (p : ℚ)
    (mode : NearestH3ResolutionSearchMode) :
    nearest_h3_resolution shape areas p mode = Except.error NdError.emptyArray ↔
      shape.1 = 0 ∨ shape.2 = 0 := by
  rw [nearest_h3_resolution]
  by_cases h : shape.1 = 0 ∨ shape.2 = 0
  · rw [if_pos h]
    simpa using h
  · rw [if_neg h]
    simp [h]

/-- Claim C9: whenever `nearest_h3_resolution` returns successfully the
resolution lies in [0, 16], and if the selected search mode's stopping
condition never triggers on resolutions 0..16 the returned resolution is 0. -/
theorem claim_c9_result_bounds (shape : Nat × Nat) (areas : Nat → ℚ) (p : ℚ)
    (mode : NearestH3ResolutionSearchMode) (r : Nat)
    (h : nearest_h3_resolution shape areas p mode = Except.ok r) :
    r ≤ 16 ∧ (noTrigger areas p mode → r = 0) := by
  rw [nearest_h3_resolution] at h
  by_cases hs : shape.1 = 0 ∨ shape.2 = 0
  · rw [if_pos hs] at h
    exact absurd h (by simp)
  · rw [if_neg hs] at h
    have hr : r = nearestAux areas p mode (List.range 17) 0 none := (Except.ok.inj h).symm
    subst hr
    refine ⟨nearestAux_le_16 areas p mode (List.range 17) 0 none
      (fun x hx => by have := List.mem_range.mp hx; omega) (by omega), fun hnt => ?_⟩
    cases mode with
    | indexAreaSmallerThanPixelArea =>
      simp only [noTrigger] at hnt
      exact nearestAux_B_skip areas p (List.range 17) 0 none
        (fun x hx => hnt x (by have := List.mem_range.mp hx; omega))
    | smallestAreaDifference =>
      simp only [noTrigger] at hnt
      exact nearestAux_A_noTrigger areas p hnt

/-- Witness for claim C9: with every cell area equal to 1 and pixel area 0,
the `IndexAreaSmallerThanPixelArea` stopping condition never triggers and the
call returns resolution 0, inside [0, 16]. -/
theorem claim_c9_witness :
    (0 : Nat) ≤ 16 ∧
      (noTrigger (fun _ => (1 : ℚ)) 0
        NearestH3ResolutionSearchMode.indexAreaSmallerThanPixelArea → (0 : Nat) = 0) :=
  claim_c9_result_bounds (2000, 2000) (fun _ => (1 : ℚ)) 0
    NearestH3ResolutionSearchMode.indexAreaSmallerThanPixelArea 0 (by rfl)

/-- Claim C4 counterexample: for strictly decreasing center-cell areas
`areasCex` and pixel area 63, `IndexAreaSmallerThanPixelArea` returns
resolution 11 while `SmallestAreaDifference` returns 10, so the former is
strictly finer (numerically greater), refuting the claimed direction. This
mirrors the repository's own unit test, which expects 10 and 11. -/
theorem claim_c4_counterexample :
    nearest_h3_resolution (2000, 2000) areasCex 63
        NearestH3ResolutionSearchMode.smallestAreaDifference = Except.ok 10 ∧
    nearest_h3_resolution (2000, 2000) areasCex 63
        NearestH3ResolutionSearchMode.indexAreaSmallerThanPixelArea = Except.ok 11 ∧
    (∀ j, j ≤ 16 → ∀ i, i < j → areasCex j < areasCex i) ∧
    ¬ ((11 : Nat) ≤ 10) :=
  ⟨by norm_num [nearest_h3_resolution, nearestAux, diffOf, areasCex], by rfl,
    by decide, by omega⟩

/-- Claim C4 (amended): for center-cell areas strictly decreasing in the
resolution (as the spec guarantees for the grid system), the resolution
returned under `SmallestAreaDifference` is never finer (never numerically
greater) than the one returned under `IndexAreaSmallerThanPixelArea` for the
same input — the original claim holds with the two modes swapped. -/
theorem claim_c4_amended (shape : Nat × Nat) (areas : Nat → ℚ) (p : ℚ)
    (hmono : ∀ j, j ≤ 16 → ∀ i, i < j → areas j < areas i)
    (rA rB : Nat)
    (hA : nearest_h3_resolution shape areas p
      NearestH3ResolutionSearchMode.smallestAreaDifference = Except.ok rA)
    (hB : nearest_h3_resolution shape areas p
      NearestH3ResolutionSearchMode.indexAreaSmallerThanPixelArea = Except.ok rB) :
    rA ≤ rB := by
  rw [nearest_h3_resolution] at hA hB
  by_cases hs : shape.1 = 0 ∨ shape.2 = 0
  · rw [if_pos hs] at hA
    exact absurd hA (by simp)
  · rw [if_neg hs] at hA hB
    have hA' : rA = nearestAux areas p NearestH3ResolutionSearchMode.smallestAreaDifference
        (List.range 17) 0 none := (Except.ok.inj hA).symm
    have hB' : rB = nearestAux areas p NearestH3ResolutionSearchMode.indexAreaSmallerThanPixelArea
        (List.range 17) 0 none := (Except.ok.inj hB).symm
    subst hA'
    subst hB'
    by_cases hex : ∃ r, r ≤ 16 ∧ areas r ≤ p
    · -- some resolution reaches cell area ≤ pixel area; let a be the least one
      have haspec : Nat.find hex ≤ 16 ∧ areas (Nat.find hex) ≤ p := Nat.find_spec hex
      set a := Nat.find hex with hadef
      have hmin' : ∀ r, r < a → ¬ areas r ≤ p := by
        intro r hr hle
        exact Nat.find_min hex (hadef ▸ hr) ⟨by omega, hle⟩
      have hBval : nearestAux areas p NearestH3ResolutionSearchMode.indexAreaSmallerThanPixelArea
          (List.range 17) 0 none = a := by
        rw [List.range_eq_range']
        exact nearestAux_B_first areas p a hmin' haspec.2 17 0 0 none (by omega) (by omega)
      rw [hBval]
      by_cases ha0 : a = 0
      · -- the very first resolution is already below the pixel area
        have hr17 : List.range 17 = 0 :: 1 :: List.range' 2 15 := by
          rw [List.range_eq_range']
          rfl
        rw [hr17, nearestAux_cons_A_none, nearestAux_cons_A_some]
        have harea0 : areas 0 ≤ p := ha0 ▸ haspec.2
        have harea1 : areas 1 < areas 0 := hmono 1 (by omega) 0 (by omega)
        have hcond : diffOf areas p 0 < diffOf areas p 1 := by
          rw [diffOf_of_le areas p harea0,
              diffOf_of_le areas p (le_of_lt (lt_of_lt_of_le harea1 harea0))]
          linarith
        rw [if_pos hcond]
        omega
      · have hr17 : List.range 17 = 0 :: List.range' 1 16 := by
          rw [List.range_eq_range']
          rfl
        rw [hr17, nearestAux_cons_A_none]
        have hd0 : diffOf areas p 0 = diffOf areas p (1 - 1) := by norm_num
        rw [hd0]
        have hsplit : List.range' 1 16 = List.range' 1 (a - 1) ++ List.range' a (17 - a) := by
          have h1 : 1 + 1 * (a - 1) = a := by omega
          have h2 : (17 - a) + (a - 1) = 16 := by omega
          calc List.range' 1 16 = List.range' 1 ((17 - a) + (a - 1)) := by rw [h2]
            _ = List.range' 1 (a - 1) ++ List.range' (1 + 1 * (a - 1)) (17 - a) :=
                (List.range'_append 1 (a - 1) (17 - a) 1).symm
            _ = List.range' 1 (a - 1) ++ List.range' a (17 - a) := by rw [h1]
        rw [hsplit]
        have hnopass : ∀ r, 1 ≤ r → r < 1 + (a - 1) →
            ¬ diffOf areas p (r - 1) < diffOf areas p r := by
          intro r hr1 hr2
          have hgt_r : p < areas r := not_le.mp (hmin' r (by omega))
          have hgt_r1 : p < areas (r - 1) := not_le.mp (hmin' (r - 1) (by omega))
          have hlt : areas r < areas (r - 1) := hmono r (by omega) (r - 1) (by omega)
          rw [diffOf_of_gt areas p hgt_r, diffOf_of_gt areas p hgt_r1]
          intro hcon
          linarith
        rw [nearestAux_A_pass areas p (a - 1) 1 0 (List.range' a (17 - a)) (le_refl 1) hnopass]
        have harg : 1 + (a - 1) - 1 = a - 1 := by omega
        rw [harg]
        have h16a : 17 - a = (16 - a) + 1 := by omega
        rw [h16a, List.range'_succ, nearestAux_cons_A_some]
        by_cases htrig : diffOf areas p (a - 1) < diffOf areas p a
        · rw [if_pos htrig]
          omega
        · rw [if_neg htrig]
          by_cases ha16 : 16 - a = 0
          · rw [ha16, List.range'_zero, nearestAux_nil]
            omega
          · have h15 : 16 - a = (15 - a) + 1 := by omega
            rw [h15, List.range'_succ, nearestAux_cons_A_some]
            have haa : areas (a + 1) < areas a := hmono (a + 1) (by omega) a (by omega)
            have hcond : diffOf areas p a < diffOf areas p (a + 1) := by
              rw [diffOf_of_le areas p haspec.2,
                  diffOf_of_le areas p (le_of_lt (lt_of_lt_of_le haa haspec.2))]
              linarith
            rw [if_pos hcond]
            omega
    · -- no resolution reaches cell area ≤ pixel area: both modes fall back to 0
      have hgt : ∀ r, r ≤ 16 → p < areas r := by
        intro r hr
        by_contra hc
        exact hex ⟨r, hr, not_lt.mp hc⟩
      have hBval : nearestAux areas p NearestH3ResolutionSearchMode.indexAreaSmallerThanPixelArea
          (List.range 17) 0 none = 0 :=
        nearestAux_B_skip areas p (List.range 17) 0 none
          (fun x hx => not_le.mpr (hgt x (by have := List.mem_range.mp hx; omega)))
      have hAval : nearestAux areas p NearestH3ResolutionSearchMode.smallestAreaDifference
          (List.range 17) 0 none = 0 := by
        apply nearestAux_A_noTrigger
        intro r hr1 hr16
        have h1 : p < areas r := hgt r hr16
        have h2 : p < areas (r - 1) := hgt (r - 1) (by omega)
        have h3 : areas r < areas (r - 1) := hmono r hr16 (r - 1) (by omega)
        rw [diffOf_of_gt areas p h1, diffOf_of_gt areas p h2]
        intro hcon
        linarith
      rw [hAval, hBval]

/-- Witness for the amended claim C4 on the concrete strictly decreasing
area sequence `areasCex` with pixel area 63: the two calls return 10 and 11
and indeed 10 ≤ 11. -/
theorem claim_c4_amended_witness :
    nearest_h3_resolution (2000, 2000) areasCex 63
        NearestH3ResolutionSearchMode.indexAreaSmallerThanPixelArea = Except.ok 11 ∧
      (10 : Nat) ≤ 11 :=
  ⟨by rfl, claim_c4_amended (2000, 2000) areasCex 63 (by decide) 10 11
    (by norm_num [nearest_h3_resolution, nearestAux, diffOf, areasCex]) (by rfl)⟩

end NdAlgo

/-! ## Helper lemmas for box clustering -/

namespace NdAlgo

theorem chunksAux_pending :
    ∀ (flags : List Bool) (n b : Nat),
      ∃ e, (b, e) ∈ chunksAux flags n (some b) ∧ n ≤ e + 1 := by
  intro flags
  induction flags with
  | nil =>
    intro n b
    exact ⟨n - 1, by simp [chunksAux], by omega⟩
  | cons f rest ih =>
    intro n b
    cases hf : f with
    | true =>
      obtain ⟨e, hmem, he⟩ := ih (n + 1) b
      exact ⟨e, by simp [chunksAux, hmem], by omega⟩
    | false =>
      exact ⟨n - 1, by simp [chunksAux], by omega⟩

theorem chunksAux_cover :
    ∀ (flags : List Bool) (n i : Nat) (st : Option Nat),
      (∀ b, st = some b → b ≤ n) → flags.get? i = some true →
      ∃ c : Nat × Nat, c ∈ chunksAux flags n st ∧ c.1 ≤ n + i ∧ n + i ≤ c.2 := by
  intro flags
  induction flags with
  | nil => intro n i st _ hi; simp at hi
  | cons f rest ih =>
    intro n i st hst hi
    cases i with
    | zero =>
      have hf : f = true := by simpa using hi
      subst hf
      cases st with
      | none =>
        obtain ⟨e, hmem, he⟩ := chunksAux_pending rest (n + 1) n
        exact ⟨(n, e), by simp [chunksAux, hmem], by omega, by omega⟩
      | some b =>
        have hb : b ≤ n := hst b rfl
        obtain ⟨e, hmem, he⟩ := chunksAux_pending rest (n + 1) b
        exact ⟨(b, e), by simp [chunksAux, hmem], by omega, by omega⟩
    | succ i =>
      have hi' : rest.get? i = some true := by simpa using hi
      cases st with
      | none =>
        cases hf : f with
        | true =>
          obtain ⟨c, hmem, h1, h2⟩ := ih (n + 1) i (some n) (by intro b hb; injection hb; omega) hi'
          exact ⟨c, by simp [chunksAux, hmem], by omega, by omega⟩
        | false =>
          obtain ⟨c, hmem, h1, h2⟩ := ih (n + 1) i none (by intro b hb; exact absurd hb (by simp)) hi'
          exact ⟨c, by simp [chunksAux, hmem], by omega, by omega⟩
      | some b =>
        cases hf : f with
        | true =>
          obtain ⟨c, hmem, h1, h2⟩ :=
            ih (n + 1) i (some b) (by intro b' hb'; injection hb' with hbb; have := hst b rfl; omega) hi'
          exact ⟨c, by simp [chunksAux, hmem], by omega, by omega⟩
        | false =>
          obtain ⟨c, hmem, h1, h2⟩ := ih (n + 1) i none (by intro b' hb'; exact absurd hb' (by simp)) hi'
          exact ⟨c, by simp [chunksAux, hmem], by omega, by omega⟩

theorem chunksAux_all_false :
    ∀ (flags : List Bool) (n : Nat), (∀ f ∈ flags, f = false) →
      chunksAux flags n none = [] := by
  intro flags
  induction flags with
  | nil => intro n _; rfl
  | cons f rest ih =>
    intro n hall
    have hf : f = false := hall f (by simp)
    subst hf
    simp only [chunksAux, if_neg (by simp : ¬ (false = true))]
    exact ih (n + 1) (fun g hg => hall g (by simp [hg]))

theorem sliceList_get? {α : Type _} (l : List α) (b e i : Nat) (h : i < e + 1 - b) :
    (sliceList l b e).get? i = l.get? (b + i) := by
  rw [sliceList, List.get?_take h, List.get?_drop]

theorem sliceList_all {α : Type _} (l : List α) (m : Nat) (h : l.length ≤ m + 1) :
    sliceList l 0 m = l := by
  rw [sliceList, List.drop_zero]
  exact List.take_of_length_le (by omega)

theorem sliceList_length {α : Type _} (l : List α) (b e : Nat) :
    (sliceList l b e).length = min (e + 1 - b) (l.length - b) := by
  rw [sliceList, List.length_take, List.length_drop]

theorem sliceList_mem {α : Type _} {l : List α} {b e : Nat} {a : α}
    (h : a ∈ sliceList l b e) : a ∈ l :=
  List.mem_of_mem_drop (List.mem_of_mem_take h)

theorem laneHasData_of_get {α : Type _} [DecidableEq α] {nodata : α} {lane : List α}
    {j : Nat} {v : α} (hj : lane.get? j = some v) (hv : v ≠ nodata) :
    laneHasData nodata lane = true := by
  rw [laneHasData, List.any_eq_true]
  exact ⟨v, List.get?_mem hj, decide_eq_true hv⟩

theorem colHasData_of_get {α : Type _} [DecidableEq α] {nodata : α} {grid : List (List α)}
    {x y : Nat} {row : List α} {v : α} (hx : grid.get? x = some row)
    (hy : row.get? y = some v) (hv : v ≠ nodata) :
    colHasData nodata grid y = true := by
  rw [colHasData, List.any_eq_true]
  refine ⟨row, List.get?_mem hx, ?_⟩
  rw [hy]
  exact decide_eq_true hv

end NdAlgo

/-! ## Claim about box clustering -/

namespace NdAlgo

/-- Claim C2: for every rectangular grid and sentinel value, every cell
holding a non-sentinel value lies inside at least one rectangle returned by
`find_boxes_containing_data`, and an all-sentinel grid yields the empty list
(no failure is possible: the function is total). -/
theorem claim_c2_box_coverage {α : Type _} [DecidableEq α] (grid : List (List α)) (nodata : α)
    (w : Nat) (hrect : ∀ row ∈ grid, row.length = w) :
    (∀ (x y : Nat) (row : List α) (v : α),
      grid.get? x = some row → row.get? y = some v → v ≠ nodata →
      ∃ r ∈ find_boxes_containing_data grid nodata,
        r.rmin.x ≤ x ∧ x ≤ r.rmax.x ∧ r.rmin.y ≤ y ∧ y ≤ r.rmax.y) ∧
    ((∀ row ∈ grid, ∀ v ∈ row, v = nodata) →
      find_boxes_containing_data grid nodata = []) := by
  constructor
  · intro x y row v hx hy hv
    have hflag0 : (grid.map (laneHasData nodata)).get? x = some true := by
      rw [List.get?_map, hx]
      simp [laneHasData_of_get hy hv]
    obtain ⟨⟨b0, e0⟩, hc0mem, hc0l, hc0r⟩ :=
      chunksAux_cover (grid.map (laneHasData nodata)) 0 x none (by simp) hflag0
    have hb0x : b0 ≤ x := by omega
    have hxe0 : x ≤ e0 := by omega
    have hsvx : (sliceList grid b0 e0).get? (x - b0) = some row := by
      rw [sliceList_get? grid b0 e0 (x - b0) (by omega),
        show b0 + (x - b0) = x by omega]
      exact hx
    have hrowlen : row.length = w := hrect row (List.get?_mem hx)
    have hyw : y < w := by
      obtain ⟨hylen, -⟩ := List.get?_eq_some.mp hy
      omega
    have hwidth : gridWidth (sliceList grid b0 e0) = w := by
      cases hsv : sliceList grid b0 e0 with
      | nil => rw [hsv] at hsvx; simp at hsvx
      | cons r0 tl =>
        have hr0 : r0 ∈ grid := sliceList_mem (by rw [hsv]; exact List.mem_cons_self r0 tl)
        simp [gridWidth, hrect r0 hr0]
    have hflag1 : ((List.range (gridWidth (sliceList grid b0 e0))).map
        (colHasData nodata (sliceList grid b0 e0))).get? y = some true := by
      rw [List.get?_map, List.get?_range (by rw [hwidth]; exact hyw)]
      simp [colHasData_of_get hsvx hy hv]
    obtain ⟨⟨b1, e1⟩, hc1mem, hc1l, hc1r⟩ :=
      chunksAux_cover _ 0 y none (by simp) hflag1
    have hb1y : b1 ≤ y := by omega
    have hye1 : y ≤ e1 := by omega
    have hsvlen : (sliceList grid b0 e0).length ≤ (e0 - b0) + 1 := by
      rw [sliceList_length]
      omega
    have hsv0 : sliceList (sliceList grid b0 e0) 0 (e0 - b0) = sliceList grid b0 e0 :=
      sliceList_all _ _ hsvlen
    have hsv2x : ((sliceList (sliceList grid b0 e0) 0 (e0 - b0)).map
        (fun r => sliceList r b1 e1)).get? (x - b0) = some (sliceList row b1 e1) := by
      rw [hsv0, List.get?_map, hsvx]
      rfl
    have hslicerow : (sliceList row b1 e1).get? (y - b1) = some v := by
      rw [sliceList_get? row b1 e1 (y - b1) (by omega),
        show b1 + (y - b1) = y by omega]
      exact hy
    have hflag2 : (((sliceList (sliceList grid b0 e0) 0 (e0 - b0)).map
        (fun r => sliceList r b1 e1)).map (laneHasData nodata)).get? (x - b0) = some true := by
      rw [List.get?_map, hsv2x]
      simp [laneHasData_of_get hslicerow hv]
    obtain ⟨⟨b2, e2⟩, hc2mem, hc2l, hc2r⟩ :=
      chunksAux_cover _ 0 (x - b0) none (by simp) hflag2
    refine ⟨DRect.new { x := b2 + b0, y := b1 } { x := e2 + b0, y := e1 }, ?_, ?_, ?_, ?_, ?_⟩
    · rw [find_boxes_containing_data]
      refine List.mem_flatMap.mpr ⟨(b0, e0), hc0mem, ?_⟩
      refine List.mem_flatMap.mpr ⟨(b1, e1), hc1mem, ?_⟩
      exact List.mem_map.mpr ⟨(b2, e2), hc2mem, rfl⟩
    · show min (b2 + b0) (e2 + b0) ≤ x
      exact le_trans (min_le_left _ _) (by omega)
    · show x ≤ max (b2 + b0) (e2 + b0)
      exact le_trans (by omega : x ≤ e2 + b0) (le_max_right _ _)
    · show min b1 e1 ≤ y
      exact le_trans (min_le_left _ _) hb1y
    · show y ≤ max b1 e1
      exact le_trans hye1 (le_max_right _ _)
  · intro hall
    rw [find_boxes_containing_data]
    have h0 : find_continuous_chunks_axis0 grid nodata = [] := by
      rw [find_continuous_chunks_axis0]
      apply chunksAux_all_false
      intro f hf
      obtain ⟨row, hrowmem, hfeq⟩ := List.mem_map.mp hf
      rw [← hfeq, laneHasData]
      apply List.any_eq_false.mpr
      intro v hvmem
      simp [hall row hrowmem v hvmem]
    rw [h0]
    rfl

/-- Witness for claim C2 on the concrete grid `[[0, 1], [0, 0]]` with
sentinel 0: the non-sentinel cell at row 0, column 1 is covered by some
returned rectangle. -/
theorem claim_c2_witness :
    ∃ r ∈ find_boxes_containing_data [[0, 1], [0, 0]] (0 : Nat),
      r.rmin.x ≤ 0 ∧ 0 ≤ r.rmax.x ∧ r.rmin.y ≤ 1 ∧ 1 ≤ r.rmax.y :=
  (claim_c2_box_coverage [[0, 1], [0, 0]] 0 2 (by decide)).1 0 1 [0, 1] 1
    (by rfl) (by rfl) (by omega)

end NdAlgo

/-! ## Helper lemmas for the packed spatial index -/

namespace PolarsSI

theorem getD_of_get? {β : Type _} {l : List β} {i : Nat} {v d : β}
    (h : l.get? i = some v) : l.getD i d = v := by
  rw [List.getD_eq_get?, h]
  rfl

theorem buildStep_eq_keptOf (rectOf : Nat → Option (Option SIRect))
    (acc : List Nat × List SIRect) (pe : Nat × ColEntry) :
    buildStep rectOf acc pe =
      match keptOf rectOf pe with
      | some pr => (acc.1 ++ [pr.1], acc.2 ++ [pr.2])
      | none => acc := by
  obtain ⟨pos, entry⟩ := pe
  match entry with
  | none => rfl
  | some (Except.error u) => rfl
  | some (Except.ok c) =>
    match hrc : rectOf c with
    | none => simp [buildStep, keptOf, hrc]
    | some none => simp [buildStep, keptOf, hrc]
    | some (some rect) => simp [buildStep, keptOf, hrc]

theorem foldl_buildStep_eq (rectOf : Nat → Option (Option SIRect)) :
    ∀ (l : List (Nat × ColEntry)) (as : List Nat) (rs : List SIRect),
      l.foldl (buildStep rectOf) (as, rs) =
        (as ++ (l.filterMap (keptOf rectOf)).map Prod.fst,
         rs ++ (l.filterMap (keptOf rectOf)).map Prod.snd) := by
  intro l
  induction l with
  | nil => intro as rs; simp
  | cons pe rest ih =>
    intro as rs
    rw [List.foldl_cons, List.filterMap_cons, buildStep_eq_keptOf]
    cases hk : keptOf rectOf pe with
    | none => rw [ih as rs]
    | some pr =>
      rw [ih (as ++ [pr.1]) (rs ++ [pr.2])]
      simp

theorem packedBuild_eq (rectOf : Nat → Option (Option SIRect)) (col : List ColEntry) :
    packedBuild rectOf col =
      ((keptPairs rectOf col).map Prod.fst, (keptPairs rectOf col).map Prod.snd) := by
  rw [packedBuild, keptPairs]
  simpa using foldl_buildStep_eq rectOf col.enum [] []

theorem keptPairs_mem (rectOf : Nat → Option (Option SIRect)) (col : List ColEntry)
    (r : Nat) (rect : SIRect) :
    (r, rect) ∈ keptPairs rectOf col ↔
      ∃ c, col.get? r = some (some (Except.ok c)) ∧ rectOf c = some (some rect) := by
  rw [keptPairs, List.mem_filterMap]
  constructor
  · rintro ⟨⟨pos, entry⟩, hmem, hf⟩
    have hget : col.get? pos = some entry := by
      have := List.mk_mem_enum_iff_getElem?.mp hmem
      rwa [← List.get?_eq_getElem?] at this
    match entry, hget with
    | none, hget => simp [keptOf] at hf
    | some (Except.error u), hget => simp [keptOf] at hf
    | some (Except.ok c), hget =>
      match hrc : rectOf c with
      | none => simp [keptOf, hrc] at hf
      | some none => simp [keptOf, hrc] at hf
      | some (some rect') =>
        simp only [keptOf, hrc, Option.some.injEq, Prod.mk.injEq] at hf
        obtain ⟨hpos, hrect⟩ := hf
        subst hpos
        subst hrect
        exact ⟨c, hget, hrc⟩
  · rintro ⟨c, hcol, hrect⟩
    refine ⟨(r, some (Except.ok c)), ?_, ?_⟩
    · apply List.mk_mem_enum_iff_getElem?.mpr
      rw [← List.get?_eq_getElem?]
      exact hcol
    · simp [keptOf, hrect]

theorem indexQuery_mem (rects : List SIRect) (q : SIRect) (ip : Nat) :
    ip ∈ indexQuery rects q ↔
      ip < rects.length ∧ rectsIntersect (rects.getD ip (SIRect.mk 0 0 0 0)) q = true := by
  rw [indexQuery, List.mem_filter, List.mem_range]

theorem pairs_getD (pairs : List (Nat × SIRect)) (ip : Nat) (hip : ip < pairs.length) :
    ∃ pr : Nat × SIRect, pairs.get? ip = some pr ∧
      (pairs.map Prod.fst).getD ip 0 = pr.1 ∧
      (pairs.map Prod.snd).getD ip (SIRect.mk 0 0 0 0) = pr.2 := by
  cases hp : pairs.get? ip with
  | none =>
    rw [List.get?_eq_none] at hp
    omega
  | some pr =>
    refine ⟨pr, rfl, ?_, ?_⟩
    · have h1 : (pairs.map Prod.fst).get? ip = some pr.1 := by
        rw [List.get?_map, hp]
        rfl
      exact getD_of_get? h1
    · have h2 : (pairs.map Prod.snd).get? ip = some pr.2 := by
        rw [List.get?_map, hp]
        rfl
      exact getD_of_get? h2

theorem foldl_setg_length (g : Nat → Nat) :
    ∀ (is : List Nat) (m : List Bool),
      (is.foldl (fun mask i => mask.set (g i) true) m).length = m.length := by
  intro is
  induction is with
  | nil => intro m; rfl
  | cons i is ih => intro m; rw [List.foldl_cons, ih, List.length_set]

theorem foldl_setg_get? (g : Nat → Nat) :
    ∀ (is : List Nat) (m : List Bool) (r : Nat),
      ((is.foldl (fun mask i => mask.set (g i) true) m).get? r = some true) ↔
        ((∃ i ∈ is, g i = r) ∧ r < m.length) ∨ m.get? r = some true := by
  intro is
  induction is with
  | nil => intro m r; simp
  | cons i is ih =>
    intro m r
    rw [List.foldl_cons, ih, List.length_set]
    constructor
    · rintro (⟨⟨j, hj, hgj⟩, hlen⟩ | hset)
      · exact Or.inl ⟨⟨j, by simp [hj], hgj⟩, hlen⟩
      · rw [List.get?_set] at hset
        by_cases hir : g i = r
        · rw [if_pos hir] at hset
          cases hm : m.get? r with
          | none => rw [hm] at hset; exact absurd hset (by simp)
          | some b =>
            obtain ⟨hlt, -⟩ := List.get?_eq_some.mp hm
            exact Or.inl ⟨⟨i, by simp, hir⟩, hlt⟩
        · rw [if_neg hir] at hset
          exact Or.inr hset
    · rintro (⟨⟨j, hj, hgj⟩, hlen⟩ | hset)
      · rcases List.mem_cons.mp hj with hji | hj'
        · subst hji
          refine Or.inr ?_
          rw [List.get?_set, if_pos hgj]
          cases hm : m.get? r with
          | none =>
            rw [List.get?_eq_none] at hm
            omega
          | some b => simp
        · exact Or.inl ⟨⟨j, hj', hgj⟩, hlen⟩
      · refine Or.inr ?_
        rw [List.get?_set]
        by_cases hir : g i = r
        · rw [if_pos hir]
          cases hm : m.get? r with
          | none => rw [hm] at hset; exact absurd hset (by simp)
          | some b =>
            rw [hm] at hset
            have hb : b = true := by simpa using hset
            subst hb
            simp
        · rw [if_neg hir]
          exact hset

theorem negative_mask_get?_ne (n r : Nat) : (negative_mask n).get? r ≠ some true := by
  rw [negative_mask]
  by_cases h : r < n
  · rw [List.get?_eq_getElem?, List.getElem?_replicate, if_pos h]
    simp
  · rw [List.get?_eq_getElem?, List.getElem?_replicate, if_neg h]
    simp

theorem negative_mask_length (n : Nat) : (negative_mask n).length = n := by
  rw [negative_mask, List.length_replicate]

end PolarsSI

/-! ## Claim about the packed spatial index -/

namespace PolarsSI

/-- Claim C1: for every column of cell identifiers and every query
rectangle, the range-intersection query of a `PackedHilbertRTreeIndex` built
over that column returns a mask whose length equals the column length and
which is true at row `r` iff row `r` holds a valid identifier whose bounding
rectangle intersects the query rectangle; rows skipped at build time (null,
invalid, no rectangle, or an entirely empty index) are always false. -/
theorem claim_c1_rtree_mask (rectOf : Nat → Option (Option SIRect)) (col : List ColEntry)
    (q : SIRect) :
    (envelopes_intersect_impl (packed_hilbert_rtree_index rectOf col) q).length = col.length ∧
    ∀ r : Nat,
      ((envelopes_intersect_impl (packed_hilbert_rtree_index rectOf col) q).get? r
          = some true ↔
        ∃ c rect, col.get? r = some (some (Except.ok c)) ∧ rectOf c = some (some rect) ∧
          rectsIntersect rect q = true) := by
  by_cases hkp : keptPairs rectOf col = []
  · have hidx : packed_hilbert_rtree_index rectOf col =
        { index := none, columnLen := col.length, positions_in_chunked_array := [] } := by
      simp [packed_hilbert_rtree_index, packedBuild_eq, hkp]
    rw [hidx]
    constructor
    · show (negative_mask col.length).length = col.length
      exact negative_mask_length col.length
    · intro r
      constructor
      · intro habs
        exact absurd habs (negative_mask_get?_ne col.length r)
      · rintro ⟨c, rect, hcol, hrect, -⟩
        exfalso
        have hmem : (r, rect) ∈ keptPairs rectOf col :=
          (keptPairs_mem rectOf col r rect).mpr ⟨c, hcol, hrect⟩
        rw [hkp] at hmem
        simp at hmem
  · have hkpmap : ¬ (keptPairs rectOf col).map Prod.fst = [] := by
      simpa [List.map_eq_nil] using hkp
    have hidx : packed_hilbert_rtree_index rectOf col =
        { index := some ((keptPairs rectOf col).map Prod.snd)
          columnLen := col.length
          positions_in_chunked_array := (keptPairs rectOf col).map Prod.fst } := by
      simp only [packed_hilbert_rtree_index, packedBuild_eq]
      rw [if_neg hkpmap]
    rw [hidx]
    constructor
    · show ((indexQuery ((keptPairs rectOf col).map Prod.snd) q).foldl
          (fun mask ip =>
            mask.set (((keptPairs rectOf col).map Prod.fst).getD ip 0) true)
          (negative_mask col.length)).length = col.length
      rw [foldl_setg_length, negative_mask_length]
    · intro r
      show ((indexQuery ((keptPairs rectOf col).map Prod.snd) q).foldl
          (fun mask ip =>
            mask.set (((keptPairs rectOf col).map Prod.fst).getD ip 0) true)
          (negative_mask col.length)).get? r = some true ↔ _
      rw [foldl_setg_get?, negative_mask_length]
      constructor
      · rintro (⟨⟨ip, hipmem, hipr⟩, -⟩ | habs)
        · obtain ⟨hiplt, hint⟩ := (indexQuery_mem _ q ip).mp hipmem
          rw [List.length_map] at hiplt
          obtain ⟨pr, hpr, hfst, hsnd⟩ := pairs_getD (keptPairs rectOf col) ip hiplt
          have hprmem : (r, pr.2) ∈ keptPairs rectOf col := by
            have hm : pr ∈ keptPairs rectOf col := List.get?_mem hpr
            rwa [show (r, pr.2) = pr by rw [← hipr, hfst]]
          obtain ⟨c, hcol, hrect⟩ := (keptPairs_mem rectOf col r pr.2).mp hprmem
          rw [hsnd] at hint
          exact ⟨c, pr.2, hcol, hrect, hint⟩
        · exact absurd habs (negative_mask_get?_ne col.length r)
      · rintro ⟨c, rect, hcol, hrect, hint⟩
        refine Or.inl ⟨?_, ?_⟩
        · have hprmem : (r, rect) ∈ keptPairs rectOf col :=
            (keptPairs_mem rectOf col r rect).mpr ⟨c, hcol, hrect⟩
          obtain ⟨ip, hip⟩ := List.mem_iff_get?.mp hprmem
          have hiplt : ip < (keptPairs rectOf col).length := by
            obtain ⟨h, -⟩ := List.get?_eq_some.mp hip
            exact h
          obtain ⟨pr, hpr, hfst, hsnd⟩ := pairs_getD (keptPairs rectOf col) ip hiplt
          rw [hip] at hpr
          have hpreq : pr = (r, rect) := (Option.some.inj hpr).symm
          subst hpreq
          refine ⟨ip, ?_, hfst⟩
          refine (indexQuery_mem _ q ip).mpr ⟨by rw [List.length_map]; exact hiplt, ?_⟩
          rw [hsnd]
          exact hint
        · obtain ⟨h, -⟩ := List.get?_eq_some.mp hcol
          exact h

end PolarsSI
